import Mathlib

/-!
# CapGo core pipeline: shallow embedding and verification

This file embeds the coordinate-mapping, stamping, naming and page-transform
core of the CapGo repository in Lean 4 and proves/refutes the frozen claims
about it.

Sources embedded:
* `app.go` — `StampPDF` (aspect-fit, Y-flip placement, zero-stamp
  short-circuit, collision-safe output naming) and `UpdatePDFPages`;
* the frontend TypeScript handlers — `handleUpdatePages` (stamp remapping
  after a page transform), `processFile` / `processAll` (batch export).

Go `float64` geometry is modelled with exact rationals `ℚ`; Go strings and
`path/filepath` functions (`Clean`, `Base`, `Ext`, `Join`) are modelled over
`List Char` following the Go standard-library algorithms; fallible Go calls
returning `(T, error)` become `Except String T` / `Option`.
-/

set_option autoImplicit false

namespace CapGo

/-! ## Aspect-preserving fit (app.go, StampPDF loop body)

The per-stamp "object-fit: contain" computation of `StampPDF`:
`targetRatio = stamp.Width / stamp.Height`, `imgRatio = imgWidth / imgHeight`;
if `imgRatio > targetRatio` the width fills the box, else the height does. -/

/-- The ephemeral placement box computed per stamp:
`finalW`, `finalH`, `offX`, `offY` of `StampPDF`. -/
structure Fit where
  finalW : ℚ
  finalH : ℚ
  offX : ℚ
  offY : ℚ
deriving DecidableEq

/-- The aspect-fit step of `StampPDF` (app.go lines 192–210), verbatim:
the `if imgRatio > targetRatio` branch fills the width, the other branch
fills the height, with the free dimension centred. -/
def containFit (boxW boxH imgW imgH : ℚ) : Fit :=
  let targetRatio := boxW / boxH
  let imgRatio := imgW / imgH
  if targetRatio < imgRatio then
    { finalW := boxW
      finalH := boxW / imgRatio
      offX := 0
      offY := (boxH - boxW / imgRatio) / 2 }
  else
    { finalW := boxH * imgRatio
      finalH := boxH
      offX := (boxW - boxH * imgRatio) / 2
      offY := 0 }

/-- `StampInfo` (app.go lines 90–97): metadata for a single stamp as sent
to the Go backend. -/
structure StampInfo where
  image : String
  x : ℚ
  y : ℚ
  width : ℚ
  height : ℚ
  pageNum : Nat
deriving DecidableEq

/-- The final placement coordinates of `StampPDF` (app.go lines 241–242):
`finalX = stamp.X + offX`, `finalY = pdfHeight - (stamp.Y + offY + finalH)`
(top-left browser coordinates flipped to pdfcpu's bottom-left origin). -/
def finalXY (pdfHeight : ℚ) (s : StampInfo) (imgW imgH : ℚ) : ℚ × ℚ :=
  let f := containFit s.width s.height imgW imgH
  (s.x + f.offX, pdfHeight - (s.y + f.offY + f.finalH))

/-- The page height `StampPDF` uses (app.go line 158): `dims[0].Height`,
the first page's height, after checking `len(dims) != 0`. -/
def stampPageHeight (dims : List ℚ) : ℚ := dims.headD 0

/-! ## Go `path/filepath` string functions (unix rules)

`StampPDF` cleans its input path and derives the output name with
`filepath.Clean`, `filepath.Base`, `filepath.Ext`, `strings.TrimSuffix`,
`strings.Split` and `filepath.Join`.  They are modelled below over
`List Char`, following the Go standard-library algorithms with `/` as the
separator.  `pathClean`'s output buffer is kept in reverse order; the fuel
argument bounds the main loop, which consumes at least one input character
per step, so fuel = input length never runs out. -/

/-- The `..`-backtracking step of Go `filepath.Clean`: pop the last buffered
character, then keep popping while the popped character is not a separator
and the buffer stays longer than the `dotdot` barrier. -/
def backtrack (dotdot : Nat) : List Char → List Char
  | [] => []
  | c :: rest => if dotdot < rest.length ∧ c ≠ '/' then backtrack dotdot rest else rest

/-- Main loop of Go `filepath.Clean` over the remaining input, with the
output buffer reversed (`out`), the `dotdot` barrier, and fuel. -/
def cleanCore (rooted : Bool) : Nat → Nat → List Char → List Char → List Char
  | 0, _, out, _ => out
  | _ + 1, _, out, [] => out
  | fuel + 1, dotdot, out, c :: rest =>
    if c = '/' then
      cleanCore rooted fuel dotdot out rest
    else if c = '.' ∧ (rest = [] ∨ rest.headD 'a' = '/') then
      cleanCore rooted fuel dotdot out rest
    else if c = '.' ∧ rest.headD 'a' = '.' ∧ (rest.tail = [] ∨ rest.tail.headD 'a' = '/') then
      if dotdot < out.length then
        cleanCore rooted fuel dotdot (backtrack dotdot out) rest.tail
      else if rooted = false then
        let out2 := '.' :: '.' :: (if out.length ≠ 0 then '/' :: out else out)
        cleanCore rooted fuel out2.length out2 rest.tail
      else
        cleanCore rooted fuel dotdot out rest.tail
    else
      let out2 :=
        if (rooted = true ∧ out.length ≠ 1) ∨ (rooted = false ∧ out.length ≠ 0) then
          '/' :: out
        else out
      cleanCore rooted fuel dotdot
        ((rest.takeWhile (fun d => d ≠ '/')).reverse ++ (c :: out2))
        (rest.dropWhile (fun d => d ≠ '/'))

/-- Go `filepath.Clean` (unix): shortest lexically-equivalent path.
`StampPDF` and `UpdatePDFPages` both apply it to their input path first. -/
def pathClean (s : String) : String :=
  match s.data with
  | [] => "."
  | c :: cs =>
    let outRev :=
      if c = '/' then cleanCore true cs.length 1 ['/'] cs
      else cleanCore false (cs.length + 1) 0 [] (c :: cs)
    if outRev = [] then "." else ⟨outRev.reverse⟩

/-- Go `filepath.Base` (unix): last element of the path after dropping
trailing separators; `"."` for the empty path, `"/"` for all-separators. -/
def pathBase (s : String) : String :=
  if s.data = [] then "."
  else
    let r := s.data.reverse.dropWhile (fun d => d = '/')
    if r = [] then "/" else ⟨(r.takeWhile (fun d => d ≠ '/')).reverse⟩

/-- Scan for Go `filepath.Ext`: walk the path backwards accumulating the
candidate extension, stopping empty at a separator, returning from the
last dot of the final element. -/
def extScan : List Char → List Char → List Char
  | [], _ => []
  | c :: rest, acc =>
    if c = '/' then []
    else if c = '.' then '.' :: acc
    else extScan rest (c :: acc)

/-- Go `filepath.Ext`: the suffix beginning at the final dot in the final
slash-separated element, empty if there is no dot. -/
def pathExt (s : String) : String := ⟨extScan s.data.reverse []⟩

/-- `p` is a prefix of `cs`, character by character. -/
def startsWithChars : List Char → List Char → Bool
  | [], _ => true
  | _ :: _, [] => false
  | p :: ps, c :: cs => p = c && startsWithChars ps cs

/-- Go `strings.TrimSuffix`: drop `suf` from the end of `s` when present. -/
def trimSuffix (s suf : String) : String :=
  if startsWithChars suf.data.reverse s.data.reverse then
    ⟨s.data.take (s.data.length - suf.data.length)⟩
  else s

/-- Everything before the first occurrence of the (non-empty) pattern:
`strings.Split(s, pat)[0]`. -/
def takeBeforePat (pat : List Char) : List Char → List Char
  | [] => []
  | c :: rest => if startsWithChars pat (c :: rest) then [] else c :: takeBeforePat pat rest

/-- Go `filepath.Join` (unix): join from the first non-empty element with
`/` and clean the result; empty if all elements are empty. -/
def goJoin (elems : List String) : String :=
  let rest := elems.dropWhile (fun e => e.data = [])
  if rest.isEmpty then "" else pathClean (String.intercalate "/" rest)

/-! ## Output naming and `StampPDF` control flow (app.go lines 100–146) -/

/-- The `n`-th output-path candidate of `StampPDF`
(app.go lines 113–127): `"{cleanBase}_capgo{ext}"` for `n = 0`, then
`"{cleanBase}_capgo ({n}){ext}"`, all under `{homeDir}/Downloads`.
`cleanBase` is the input's base name, extension trimmed and everything
from the first `"_capgo"` on removed (`strings.Split(baseName, "_capgo")[0]`). -/
def outputCandidate (homeDir cleanedPdfPath : String) (n : Nat) : String :=
  let ext := pathExt cleanedPdfPath
  let base := trimSuffix (pathBase cleanedPdfPath) ext
  let cleanBase : String := ⟨takeBeforePat "_capgo".data base.data⟩
  let fname :=
    if n = 0 then cleanBase ++ "_capgo" ++ ext
    else cleanBase ++ "_capgo (" ++ toString n ++ ")" ++ ext
  goJoin [homeDir, "Downloads", fname]

/-- The collision-probing loop of `StampPDF` (app.go lines 121–128): try
candidate `n`, `n+1`, … until one does not exist on disk (`ex` is the
`os.Stat`-existence predicate).  The Go loop is unbounded; fuel models it,
`none` standing for non-termination/exhaustion. -/
def findAvailable (ex : String → Bool) (cand : Nat → String) : Nat → Nat → Option String
  | _, 0 => none
  | n, fuel + 1 => if ex (cand n) then findAvailable ex cand (n + 1) fuel else some (cand n)

/-- Result and on-disk effect of `StampPDF` (app.go lines 100–262):
the input path is cleaned; with no stamps the cleaned input path is
returned with nothing written; otherwise the unique output path is probed
and — when every per-stamp decode/resize/watermark step succeeds, which is
abstracted by `stampsOk` since no modelled claim depends on its internals —
the output file is the only file left on disk (intermediates and temp
stamp images are removed by `defer`).  `none` models an error return. -/
def stampPDF (ex : String → Bool) (homeDir pdfPath : String)
    (stamps : List StampInfo) (stampsOk : Bool) (fuel : Nat) :
    Option (String × List String) :=
  let cleaned := pathClean pdfPath
  if stamps.isEmpty then some (cleaned, [])
  else
    match findAvailable ex (outputCandidate homeDir cleaned) 0 fuel with
    | none => none
    | some out => if stampsOk then some (out, [out]) else none

/-! ## Stamp remapping after a page transform (frontend `handleUpdatePages`)

`handleUpdatePages` iterates `newOrder.forEach((oldPageNum, newIndex))`,
pushing a copy of every stamp whose `pageNum` equals `oldPageNum` with
`pageNum = newIndex + 1` and a freshly generated id.  The random 9-character
ids (`Math.random().toString(36)`) are modelled as an id supply
`fresh : Nat → Nat` consumed in output order. -/

/-- A placed stamp of the frontend model (`Stamp`): id, image reference,
geometry in PDF points, 1-indexed target page. -/
structure Stamp where
  id : Nat
  image : String
  x : ℚ
  y : ℚ
  width : ℚ
  height : ℚ
  pageNum : Nat
deriving DecidableEq

/-- Clone of a stamp retargeted to page `n` (spread `{...s, pageNum}` in
`handleUpdatePages`). -/
def retarget (n : Nat) (s : Stamp) : Stamp := { s with pageNum := n }

/-- The `newOrder.forEach((oldPageNum, newIndex) => ...)` loop of
`handleUpdatePages`: for each position, append the stamps whose `pageNum`
equals the original page number there, retargeted to `newIndex + 1`. -/
def remapAux (stamps : List Stamp) : Nat → List Nat → List Stamp
  | _, [] => []
  | idx, p :: rest =>
    ((stamps.filter (fun s => s.pageNum = p)).map (retarget (idx + 1)))
      ++ remapAux stamps (idx + 1) rest

/-- Give the `j`-th produced stamp the `j`-th fresh id (each push in
`handleUpdatePages` draws one fresh random id, in output order). -/
def assignIds (fresh : Nat → Nat) : Nat → List Stamp → List Stamp
  | _, [] => []
  | j, s :: rest => { s with id := fresh j } :: assignIds fresh (j + 1) rest

/-- The complete stamp remap of `handleUpdatePages`: fan the stamps out
over `newOrder` and assign fresh ids to the clones. -/
def remapStamps (stamps : List Stamp) (newOrder : List Nat) (fresh : Nat → Nat) : List Stamp :=
  assignIds fresh 0 (remapAux stamps 0 newOrder)

/-- The id-independent content of a stamp: image reference and geometry. -/
def geomOf (s : Stamp) : String × ℚ × ℚ × ℚ × ℚ := (s.image, s.x, s.y, s.width, s.height)

/-! ## Documents, the page-transform handler, and batch export -/

/-- Document processing status (`status` of a frontend `PdfFile`). -/
inductive DocStatus
  | pending
  | processing
  | completed
  | error
deriving DecidableEq

/-- A frontend document (`PdfFile`): name, current source path, stamps,
status, optional result path, batch-selection flag. -/
structure PdfDoc where
  name : String
  path : String
  stamps : List Stamp
  status : DocStatus
  resultPath : Option String
  selected : Bool
deriving DecidableEq

/-- `UpdatePDFPages` (app.go lines 266–283): clean the input path, build
the temp output path, run `api.CollectFile` (abstracted as `collect`), and
either return the wrapped error or the output path. -/
def updatePDFPages (tempDir : String) (pid : Nat) (pdfPath : String)
    (collect : String → String → List Nat → Except String Unit) (pages : List Nat) :
    Except String String :=
  let cleaned := pathClean pdfPath
  let outputPath := goJoin [tempDir, "capgo_mod_" ++ toString pid ++ "_" ++ pathBase cleaned]
  match collect cleaned outputPath pages with
  | Except.error e => Except.error ("failed to collect pages: " ++ e)
  | Except.ok _ => Except.ok outputPath

/-- Net document-state effect of the frontend `handleUpdatePages`: on a
backend error the catch block only raises a notification, so the document
is left untouched; on success the document gets the new path and the
remapped stamp list. -/
def handleUpdatePages (doc : PdfDoc) (newOrder : List Nat) (fresh : Nat → Nat)
    (updateResult : Except String String) : PdfDoc :=
  match updateResult with
  | Except.error _ => doc
  | Except.ok newPath => { doc with path := newPath, stamps := remapStamps doc.stamps newOrder fresh }

/-- Net document-state effect of the frontend `processFile` on one
document: no stamps — untouched (early return); otherwise the transient
`processing` status settles to `completed` with the result path on
success, or to `error` (result path untouched) on failure. -/
def processFile (d : PdfDoc) (outcome : Except String String) : PdfDoc :=
  if d.stamps.isEmpty then d
  else
    match outcome with
    | Except.ok p => { d with status := DocStatus.completed, resultPath := some p }
    | Except.error _ => { d with status := DocStatus.error }

/-- Index-carrying loop of the frontend `processAll`: walk the document
list, processing exactly the selected documents, each with its own
pipeline outcome; the catch block swallows a failure and continues. -/
def processAllAux (outcomes : Nat → Except String String) : Nat → List PdfDoc → List PdfDoc
  | _, [] => []
  | i, d :: rest =>
    (if d.selected then processFile d (outcomes i) else d) :: processAllAux outcomes (i + 1) rest

/-- The frontend batch export `processAll` over the whole document list. -/
def processAll (docs : List PdfDoc) (outcomes : Nat → Except String String) : List PdfDoc :=
  processAllAux outcomes 0 docs

/-! ## Concrete instances used by the witness theorems -/

/-- A failing `api.CollectFile` backend: the page-selection step rejects an
out-of-range original page number. -/
def collectFail : String → String → List Nat → Except String Unit :=
  fun _ _ _ => Except.error "page 7 out of range"

/-- Example document with one stamp, used to witness error atomicity. -/
def docEx : PdfDoc :=
  ⟨"report.pdf", "/u/report.pdf", [⟨1, "img.png", 0, 0, 10, 10, 2⟩],
   DocStatus.pending, none, true⟩

/-- A disk on which exactly `/u/Downloads/report_capgo.pdf` exists. -/
def exReport : String → Bool := fun s => s == "/u/Downloads/report_capgo.pdf"

/-- A one-stamp list making `StampPDF` take its non-empty branch. -/
def stampsEx : List StampInfo := [⟨"sig.png", 0, 0, 10, 10, 1⟩]

/-- Page heights of a document whose second page is letter-height 612
while the first is 792. -/
def dimsEx : List ℚ := [792, 612]

/-- A stamp targeted at page 2 of `dimsEx`. -/
def stampOnPage2 : StampInfo := ⟨"sig.png", 10, 20, 10, 10, 2⟩

/-- A stamp sitting on original page 3, for the fan-out example. -/
def stampPage3 : Stamp := ⟨7, "sig.png", 1, 2, 3, 4, 3⟩

/-- A stamp sitting on original page 1. -/
def stampPage1 : Stamp := ⟨5, "img.png", 0, 0, 10, 10, 1⟩

/-- A second stamp on original page 3 with different geometry. -/
def stampPage3b : Stamp := ⟨6, "seal.png", 5, 6, 7, 8, 3⟩

/-- Batch-export example documents, all selected, each with one stamp. -/
def docsEx : List PdfDoc :=
  [⟨"a.pdf", "/u/a.pdf", [stampPage1], DocStatus.pending, none, true⟩,
   ⟨"b.pdf", "/u/b.pdf", [stampPage3], DocStatus.pending, none, true⟩,
   ⟨"c.pdf", "/u/c.pdf", [stampPage3b], DocStatus.pending, none, true⟩]

/-- Batch-export outcomes in which the second document's pipeline fails
while the others succeed. -/
def outcomesEx : Nat → Except String String :=
  fun n => if n = 1 then Except.error "image decode failed"
           else Except.ok ("/u/Downloads/out" ++ toString n ++ ".pdf")

/-! ## Theorems -/

/-- Evaluation of the fit for a 1×1 image in a 1×1 box: the ratios
coincide, so the height-filling branch runs and fills both dimensions. -/
theorem containFit_eval_square : containFit 1 1 1 1 = ⟨1, 1, 0, 0⟩ := by
  have hc : ¬((1 : ℚ) / 1 < 1 / 1) := by norm_num
  simp only [containFit]
  rw [if_neg hc]
  simp only [Fit.mk.injEq]
  norm_num

/-- Evaluation of the fit for the §8 scenario: a 300×150 image in a
105×56 box takes the width-filling branch. -/
theorem containFit_eval_scenario : containFit 105 56 300 150 = ⟨105, 105 / 2, 0, 7 / 4⟩ := by
  have hc : (105 : ℚ) / 56 < 300 / 150 := by norm_num
  simp only [containFit]
  rw [if_pos hc]
  simp only [Fit.mk.injEq]
  norm_num

/-! Claim C1 — the contain-fit postcondition. -/

/-- C1, counterexample: with box 1×1 and a 1×1 image the aspect ratios
coincide, the height-filling branch returns `finalW = w` and `finalH = h`
simultaneously, so "exactly one of `finalW = w` or `finalH = h` holds" is
false for `containFit`. -/
theorem containFit_exactly_one_refuted :
    ¬(((containFit 1 1 1 1).finalW = 1 ∧ (containFit 1 1 1 1).finalH ≠ 1)
      ∨ ((containFit 1 1 1 1).finalW ≠ 1 ∧ (containFit 1 1 1 1).finalH = 1)) := by
  rw [containFit_eval_square]
  simp

/-- C1, amended: for positive box `w × h` and positive image `imgW × imgH`,
`containFit` preserves the image aspect ratio exactly, never exceeds the
box, touches at least one box dimension, and touches both exactly when the
two aspect ratios coincide (so "exactly one" holds precisely when the
ratios differ). -/
theorem containFit_contain_spec (w h iw ih : ℚ)
    (hw : 0 < w) (hh : 0 < h) (hiw : 0 < iw) (hih : 0 < ih) :
    (containFit w h iw ih).finalW / (containFit w h iw ih).finalH = iw / ih
    ∧ (containFit w h iw ih).finalW ≤ w
    ∧ (containFit w h iw ih).finalH ≤ h
    ∧ ((containFit w h iw ih).finalW = w ∨ (containFit w h iw ih).finalH = h)
    ∧ (((containFit w h iw ih).finalW = w ∧ (containFit w h iw ih).finalH = h)
        ↔ iw / ih = w / h) := by
  have hw' : w ≠ 0 := ne_of_gt hw
  have hh' : h ≠ 0 := ne_of_gt hh
  have hr : 0 < iw / ih := div_pos hiw hih
  have hr' : iw / ih ≠ 0 := ne_of_gt hr
  simp only [containFit]
  split_ifs with hlt
  · -- image relatively wider: width fills the box
    have hH : w / (iw / ih) < h := by
      rw [div_lt_iff₀ hr, mul_comm]
      exact (div_lt_iff₀ hh).mp hlt
    refine ⟨?_, le_refl w, le_of_lt hH, Or.inl rfl, ?_⟩
    · rw [div_div_eq_mul_div, mul_comm, mul_div_assoc, div_self hw', mul_one]
    · constructor
      · intro hc
        exact absurd hc.2 (ne_of_lt hH)
      · intro hc
        exact absurd hc (ne_of_gt hlt)
  · -- image relatively taller or equal: height fills the box
    have hle : iw / ih ≤ w / h := le_of_not_lt hlt
    have hwh : h * (w / h) = w := by
      rw [mul_comm]
      exact div_mul_cancel₀ w hh'
    have hWle : h * (iw / ih) ≤ w := by
      have h3 := mul_le_mul_of_nonneg_left hle (le_of_lt hh)
      rw [hwh] at h3
      exact h3
    refine ⟨mul_div_cancel_left₀ _ hh', hWle, le_refl h, Or.inr rfl, ?_⟩
    constructor
    · intro hc
      rw [eq_div_iff hh']
      linear_combination hc.1
    · intro hc
      refine ⟨?_, rfl⟩
      rw [hc]
      exact hwh

/-- C1 witness: the amended contain-fit postcondition evaluated at the
box 2×1 with a square 1×1 image. -/
theorem containFit_contain_spec_witness :
    ((0 : ℚ) < 2 ∧ (0 : ℚ) < 1)
    ∧ ((containFit 2 1 1 1).finalW / (containFit 2 1 1 1).finalH = 1 / 1
       ∧ (containFit 2 1 1 1).finalW ≤ 2
       ∧ (containFit 2 1 1 1).finalH ≤ 1
       ∧ ((containFit 2 1 1 1).finalW = 2 ∨ (containFit 2 1 1 1).finalH = 1)
       ∧ (((containFit 2 1 1 1).finalW = 2 ∧ (containFit 2 1 1 1).finalH = 1)
           ↔ (1 : ℚ) / 1 = 2 / 1)) :=
  ⟨⟨by norm_num, by norm_num⟩,
   containFit_contain_spec 2 1 1 1 (by norm_num) (by norm_num) (by norm_num) (by norm_num)⟩

/-! Claim C2 — Y-flip correctness and invertibility. -/

/-- C2: `StampPDF` emits `pdfX = stamp.x + offX` and
`pdfY = pageHeight - (stamp.y + offY + finalH)`, and the vertical flip is
invertible: `pageHeight - pdfY - offY - finalH` recovers `stamp.y`
exactly. -/
theorem finalXY_y_flip_invertible (H : ℚ) (s : StampInfo) (imgW imgH : ℚ) :
    (finalXY H s imgW imgH).1 = s.x + (containFit s.width s.height imgW imgH).offX
    ∧ (finalXY H s imgW imgH).2
        = H - (s.y + (containFit s.width s.height imgW imgH).offY
            + (containFit s.width s.height imgW imgH).finalH)
    ∧ H - (finalXY H s imgW imgH).2
        - (containFit s.width s.height imgW imgH).offY
        - (containFit s.width s.height imgW imgH).finalH = s.y := by
  refine ⟨rfl, rfl, ?_⟩
  simp only [finalXY]
  ring

/-! Claim C3 — the worked scenario. -/

/-- C3, counterexample: for the 105×56 box with a 300×150 image the image
ratio 2.0 exceeds the box ratio 1.875, so `StampPDF` takes the
width-filling branch: `finalH` is 52.5 (not 56) and the emitted `pdfY` is
687.75 (not 686). -/
theorem scenario_spec_values_refuted :
    (containFit 105 56 300 150).finalH ≠ 56
    ∧ (finalXY 792 ⟨"sig.png", 50, 50, 105, 56, 1⟩ 300 150).2 ≠ 686 := by
  constructor
  · rw [containFit_eval_scenario]
    norm_num
  · simp only [finalXY]
    rw [containFit_eval_scenario]
    norm_num

/-- C3, amended: with page height 792 and stamp `{x:50, y:50, w:105, h:56}`
over a 300×150 image, the width-filling branch gives `finalW = 105`,
`finalH = 52.5`, `offX = 0`, `offY = 1.75`, and the emitted placement is
`pdfX = 50`, `pdfY = 792 - (50 + 1.75 + 52.5) = 687.75`. -/
theorem scenario_actual_values :
    containFit 105 56 300 150 = ⟨105, 105 / 2, 0, 7 / 4⟩
    ∧ finalXY 792 ⟨"sig.png", 50, 50, 105, 56, 1⟩ 300 150 = (50, 2751 / 4) := by
  refine ⟨containFit_eval_scenario, ?_⟩
  simp only [finalXY]
  rw [containFit_eval_scenario]
  simp only [Prod.mk.injEq]
  norm_num

/-! Claim C6 — zero-stamp short-circuit. -/

/-- C6, counterexample: `StampPDF` runs `filepath.Clean` on its input
before the zero-stamp check, so for the input path `"./doc.pdf"` it
returns `"doc.pdf"`, which is not the original input string. -/
theorem zero_stamp_path_not_identity :
    stampPDF (fun _ => false) "/u" "./doc.pdf" [] true 10 = some ("doc.pdf", [])
    ∧ "doc.pdf" ≠ "./doc.pdf" := by
  constructor
  · rfl
  · decide

/-- C6, amended: with an empty stamp list `StampPDF` short-circuits for
every input: it returns the lexically-cleaned input path (equal to the
input whenever the path is already clean) and writes no file at all. -/
theorem zero_stamp_short_circuit (ex : String → Bool) (homeDir p : String)
    (ok : Bool) (fuel : Nat) :
    stampPDF ex homeDir p [] ok fuel = some (pathClean p, []) := rfl

/-! Claim C9 — page-transform error atomicity. -/

/-- C9: when the page-collection backend call of `UpdatePDFPages` fails,
the frontend `handleUpdatePages` leaves the document exactly as it was:
same source path, same stamp list. -/
theorem updatePages_error_atomic (doc : PdfDoc) (newOrder : List Nat) (fresh : Nat → Nat)
    (tempDir : String) (pid : Nat)
    (collect : String → String → List Nat → Except String Unit) (pages : List Nat) (e : String)
    (hfail : collect (pathClean doc.path)
        (goJoin [tempDir, "capgo_mod_" ++ toString pid ++ "_" ++ pathBase (pathClean doc.path)])
        pages = Except.error e) :
    handleUpdatePages doc newOrder fresh (updatePDFPages tempDir pid doc.path collect pages)
      = doc := by
  simp only [updatePDFPages, hfail, handleUpdatePages]

/-- C9 witness: an out-of-range page-collection failure on a concrete
document leaves it unchanged. -/
theorem updatePages_error_atomic_witness :
    collectFail (pathClean docEx.path)
        (goJoin ["/tmp", "capgo_mod_" ++ toString 42 ++ "_" ++ pathBase (pathClean docEx.path)])
        [3] = Except.error "page 7 out of range"
    ∧ handleUpdatePages docEx [3] (fun n => n)
        (updatePDFPages "/tmp" 42 docEx.path collectFail [3]) = docEx :=
  ⟨rfl,
   updatePages_error_atomic docEx [3] (fun n => n) "/tmp" 42 collectFail [3]
     "page 7 out of range" rfl⟩

/-! Claim C8 — `StampPDF` takes the page height from the first page. -/

/-- C8: the emitted `pdfY` is always computed from `dims[0].Height`, the
first page's height, whatever the stamp's target page is; for a stamp
whose target page has a different height, the emitted `pdfY` therefore
differs from the value the target page's own height would give. -/
theorem stampPDF_first_page_height (dims : List ℚ) (s : StampInfo) (imgW imgH hTarget : ℚ)
    (ht : dims.get? (s.pageNum - 1) = some hTarget)
    (hne : hTarget ≠ stampPageHeight dims) :
    (finalXY (stampPageHeight dims) s imgW imgH).2
        = stampPageHeight dims
          - (s.y + (containFit s.width s.height imgW imgH).offY
             + (containFit s.width s.height imgW imgH).finalH)
    ∧ (finalXY (stampPageHeight dims) s imgW imgH).2
        ≠ hTarget
          - (s.y + (containFit s.width s.height imgW imgH).offY
             + (containFit s.width s.height imgW imgH).finalH) := by
  refine ⟨rfl, fun hEq => ?_⟩
  have hEq' : stampPageHeight dims
      - (s.y + (containFit s.width s.height imgW imgH).offY
         + (containFit s.width s.height imgW imgH).finalH)
      = hTarget - (s.y + (containFit s.width s.height imgW imgH).offY
         + (containFit s.width s.height imgW imgH).finalH) := hEq
  exact hne (sub_left_inj.mp hEq').symm

/-- C8 witness: a stamp on page 2 of a document whose first page is 792
high and second 612: the placement uses 792, not 612. -/
theorem stampPDF_first_page_height_witness :
    dimsEx.get? (stampOnPage2.pageNum - 1) = some 612
    ∧ (612 : ℚ) ≠ stampPageHeight dimsEx
    ∧ ((finalXY (stampPageHeight dimsEx) stampOnPage2 300 150).2
        = stampPageHeight dimsEx
          - (stampOnPage2.y
             + (containFit stampOnPage2.width stampOnPage2.height 300 150).offY
             + (containFit stampOnPage2.width stampOnPage2.height 300 150).finalH)
       ∧ (finalXY (stampPageHeight dimsEx) stampOnPage2 300 150).2
        ≠ 612 - (stampOnPage2.y
             + (containFit stampOnPage2.width stampOnPage2.height 300 150).offY
             + (containFit stampOnPage2.width stampOnPage2.height 300 150).finalH)) :=
  ⟨rfl, by norm_num [stampPageHeight, dimsEx],
   stampPDF_first_page_height dimsEx stampOnPage2 300 150 612 rfl
     (by norm_num [stampPageHeight, dimsEx])⟩

/-! Claim C10 — batch failure isolation. -/

/-- Length preservation of the batch-export loop. -/
theorem processAllAux_length (outcomes : Nat → Except String String) :
    ∀ (l : List PdfDoc) (j : Nat), (processAllAux outcomes j l).length = l.length := by
  intro l
  induction l with
  | nil => intro j; rfl
  | cons d rest ih => intro j; simp [processAllAux, ih]

/-- Pointwise description of the batch-export loop: document `i`'s final
state depends only on its own prior state and its own outcome. -/
theorem processAllAux_get? (outcomes : Nat → Except String String) :
    ∀ (l : List PdfDoc) (j i : Nat),
    (processAllAux outcomes j l).get? i
      = (l.get? i).map (fun d => if d.selected then processFile d (outcomes (j + i)) else d) := by
  intro l
  induction l with
  | nil => intro j i; simp [processAllAux]
  | cons d rest ih =>
    intro j i
    cases i with
    | zero => simp [processAllAux]
    | succ i' =>
      simp only [processAllAux, List.get?_cons_succ]
      rw [ih (j + 1) i']
      have harith : j + 1 + i' = j + (i' + 1) := by omega
      rw [harith]

/-- C10: batch export is failure-isolated: the output list has one entry
per input document, and entry `i` is exactly the result of processing
document `i` with its own outcome (selected documents get their own
completed/error state, unselected documents are untouched) — independent
of every other document's outcome. -/
theorem processAll_isolation (docs : List PdfDoc) (outcomes : Nat → Except String String)
    (i : Nat) (hi : i < docs.length) :
    (processAll docs outcomes).length = docs.length
    ∧ (processAll docs outcomes).get? i
        = some (if (docs.get ⟨i, hi⟩).selected
                then processFile (docs.get ⟨i, hi⟩) (outcomes i)
                else docs.get ⟨i, hi⟩) := by
  constructor
  · exact processAllAux_length outcomes docs 0
  · rw [processAll, processAllAux_get? outcomes docs 0 i, List.get?_eq_get hi]
    simp

/-- C10 witness: three selected documents where the second pipeline fails;
the third document still gets its own completed state. -/
theorem processAll_isolation_witness :
    2 < docsEx.length
    ∧ ((processAll docsEx outcomesEx).length = docsEx.length
       ∧ (processAll docsEx outcomesEx).get? 2
           = some (if (docsEx.get ⟨2, by decide⟩).selected
                   then processFile (docsEx.get ⟨2, by decide⟩) (outcomesEx 2)
                   else docsEx.get ⟨2, by decide⟩)) :=
  ⟨by decide, processAll_isolation docsEx outcomesEx 2 (by decide)⟩

/-! Claim C7 — collision-safe output naming. -/

/-- The probing loop returns the first non-existing candidate: if
candidate `n` is free, all earlier ones are taken, and the fuel covers
`n`, the loop stops exactly at candidate `n`. -/
theorem findAvailable_eq (ex : String → Bool) (cand : Nat → String) :
    ∀ (fuel start n : Nat), start ≤ n → n < start + fuel →
      ex (cand n) = false → (∀ m, start ≤ m → m < n → ex (cand m) = true) →
      findAvailable ex cand start fuel = some (cand n) := by
  intro fuel
  induction fuel with
  | zero => intro start n h1 h2 _ _; omega
  | succ fuel ih =>
    intro start n h1 h2 hfree hmin
    rw [findAvailable]
    by_cases hs : start = n
    · subst hs
      rw [hfree]
      simp
    · have hlt : start < n := lt_of_le_of_ne h1 hs
      rw [hmin start (le_refl start) hlt]
      simp only [if_true]
      exact ih (start + 1) n (by omega) (by omega) hfree
        (fun m hm1 hm2 => hmin m (by omega) hm2)

/-- C7: with at least one stamp, `StampPDF` writes exactly one file, named
by the first free candidate `"{cleanBase}_capgo{ext}"`,
`"{cleanBase}_capgo (1){ext}"`, `"{cleanBase}_capgo (2){ext}"`, … in the
Downloads directory, and the chosen path did not exist beforehand — no
existing file is ever overwritten. -/
theorem stampPDF_collision_safe_naming (ex : String → Bool) (homeDir pdfPath : String)
    (stamps : List StampInfo) (fuel n : Nat)
    (hne : stamps ≠ [])
    (hn : n < fuel)
    (hfree : ex (outputCandidate homeDir (pathClean pdfPath) n) = false)
    (hmin : ∀ m, m < n → ex (outputCandidate homeDir (pathClean pdfPath) m) = true) :
    stampPDF ex homeDir pdfPath stamps true fuel
        = some (outputCandidate homeDir (pathClean pdfPath) n,
                [outputCandidate homeDir (pathClean pdfPath) n])
    ∧ ex (outputCandidate homeDir (pathClean pdfPath) n) = false := by
  have hfa := findAvailable_eq ex (outputCandidate homeDir (pathClean pdfPath)) fuel 0 n
      (Nat.zero_le n) (by omega) hfree (fun m _ hm => hmin m hm)
  refine ⟨?_, hfree⟩
  cases stamps with
  | nil => exact absurd rfl hne
  | cons s rest => simp [stampPDF, hfa]

/-- C7 witness: with `report_capgo.pdf` already in Downloads, exporting
`report.pdf` picks `report_capgo (1).pdf` and overwrites nothing. -/
theorem stampPDF_collision_safe_naming_witness :
    stampsEx ≠ []
    ∧ exReport (outputCandidate "/u" (pathClean "/u/report.pdf") 0) = true
    ∧ outputCandidate "/u" (pathClean "/u/report.pdf") 0 = "/u/Downloads/report_capgo.pdf"
    ∧ outputCandidate "/u" (pathClean "/u/report.pdf") 1 = "/u/Downloads/report_capgo (1).pdf"
    ∧ (stampPDF exReport "/u" "/u/report.pdf" stampsEx true 2
        = some (outputCandidate "/u" (pathClean "/u/report.pdf") 1,
                [outputCandidate "/u" (pathClean "/u/report.pdf") 1])
       ∧ exReport (outputCandidate "/u" (pathClean "/u/report.pdf") 1) = false) :=
  ⟨by decide, by decide, by decide, by decide,
   stampPDF_collision_safe_naming exReport "/u" "/u/report.pdf" stampsEx 2 1
     (by decide) (by decide) (by decide)
     (fun m hm => by
       have hm0 : m = 0 := by omega
       subst hm0
       decide)⟩

/-! Claims C4 and C5 — the stamp remap of `handleUpdatePages`.
Structural lemmas about `remapAux` and `assignIds` first. -/

/-- Every stamp produced by the remap loop from position `idx` on lands on
new page `idx + j + 1` for some position `j` of the remaining order. -/
theorem mem_remapAux (stamps : List Stamp) :
    ∀ (order : List Nat) (idx : Nat) (t : Stamp),
      t ∈ remapAux stamps idx order → ∃ j, j < order.length ∧ t.pageNum = idx + j + 1 := by
  intro order
  induction order with
  | nil => intro idx t ht; simp [remapAux] at ht
  | cons p rest ih =>
    intro idx t ht
    rw [remapAux] at ht
    rcases List.mem_append.mp ht with h | h
    · rcases List.mem_map.mp h with ⟨s, _, rfl⟩
      exact ⟨0, by simp, rfl⟩
    · rcases ih (idx + 1) t h with ⟨j, hj, hpage⟩
      exact ⟨j + 1, by simpa using Nat.succ_lt_succ hj, by omega⟩

/-- Block structure of the remap loop: the stamps it sends to new page
`idx + k + 1` are exactly the stamps of original page `order[k]`,
retargeted there. -/
theorem remapAux_filter (stamps : List Stamp) :
    ∀ (order : List Nat) (idx k : Nat),
      (remapAux stamps idx order).filter (fun t => t.pageNum = idx + k + 1)
        = ((order.get? k).map
            (fun p => (stamps.filter (fun s => s.pageNum = p)).map
              (retarget (idx + k + 1)))).getD [] := by
  intro order
  induction order with
  | nil => intro idx k; simp [remapAux]
  | cons p rest ih =>
    intro idx k
    rw [remapAux, List.filter_append]
    cases k with
    | zero =>
      have hblock : ((stamps.filter (fun s => s.pageNum = p)).map (retarget (idx + 1))).filter
          (fun t => t.pageNum = idx + 0 + 1)
          = (stamps.filter (fun s => s.pageNum = p)).map (retarget (idx + 1)) := by
        apply List.filter_eq_self.mpr
        intro a ha
        rcases List.mem_map.mp ha with ⟨s, _, rfl⟩
        simp [retarget]
      have htail : (remapAux stamps (idx + 1) rest).filter
          (fun t => t.pageNum = idx + 0 + 1) = [] := by
        apply List.filter_eq_nil_iff.mpr
        intro a ha
        rcases mem_remapAux stamps rest (idx + 1) a ha with ⟨j, hj, hpage⟩
        simp only [decide_eq_true_eq]
        omega
      rw [hblock, htail]
      simp
    | succ k' =>
      have hblock : ((stamps.filter (fun s => s.pageNum = p)).map (retarget (idx + 1))).filter
          (fun t => t.pageNum = idx + (k' + 1) + 1) = [] := by
        apply List.filter_eq_nil_iff.mpr
        intro a ha
        rcases List.mem_map.mp ha with ⟨s, _, rfl⟩
        simp [retarget]
      rw [hblock]
      have harith : idx + (k' + 1) + 1 = idx + 1 + k' + 1 := by omega
      simp only [List.nil_append, harith]
      rw [ih (idx + 1) k']
      simp

/-- Reassigning ids does not change which stamps sit on a page nor their
image/geometry content. -/
theorem assignIds_filter_geom (fresh : Nat → Nat) (m : Nat) :
    ∀ (l : List Stamp) (j : Nat),
      ((assignIds fresh j l).filter (fun t => t.pageNum = m)).map geomOf
        = (l.filter (fun t => t.pageNum = m)).map geomOf := by
  intro l
  induction l with
  | nil => intro j; rfl
  | cons s rest ih =>
    intro j
    rw [assignIds]
    by_cases hs : s.pageNum = m
    · simp [List.filter_cons, hs, geomOf, ih]
    · simp [List.filter_cons, hs, ih]

/-- The ids assigned by `assignIds` starting at `j` are exactly
`fresh j, fresh (j+1), …` in order. -/
theorem assignIds_map_id (fresh : Nat → Nat) :
    ∀ (l : List Stamp) (j : Nat),
      (assignIds fresh j l).map (fun t => t.id) = (List.range' j l.length).map fresh := by
  intro l
  induction l with
  | nil => intro j; rfl
  | cons s rest ih =>
    intro j
    rw [assignIds]
    simp [List.range'_succ, ih]

/-- Reassigning ids preserves each stamp's page number (up to membership). -/
theorem assignIds_pageNum_mem (fresh : Nat → Nat) :
    ∀ (l : List Stamp) (j : Nat) (t : Stamp),
      t ∈ assignIds fresh j l → ∃ s, s ∈ l ∧ t.pageNum = s.pageNum := by
  intro l
  induction l with
  | nil => intro j t ht; simp [assignIds] at ht
  | cons s rest ih =>
    intro j t ht
    rw [assignIds] at ht
    rcases List.mem_cons.mp ht with h | h
    · refine ⟨s, List.mem_cons_self s rest, ?_⟩
      subst h
      rfl
    · rcases ih (j + 1) t h with ⟨s', hs', hp⟩
      exact ⟨s', List.mem_cons_of_mem s hs', hp⟩

/-- C4: the duplication fan-out of the stamp remap.  For every 0-indexed
position `i` of `newOrder`, the stamps the remap places on new page `i+1`
are exactly the stamps whose `pageNum` is the original page number at
position `i`, with image and geometry unchanged (so a stamp is cloned
once per occurrence of its page); and when the id supply is injective all
produced stamp ids are pairwise distinct. -/
theorem remap_duplication_fanout (stamps : List Stamp) (newOrder : List Nat)
    (fresh : Nat → Nat) (hinj : Function.Injective fresh) :
    (∀ i, ((remapStamps stamps newOrder fresh).filter
          (fun t => t.pageNum = i + 1)).map geomOf
        = ((newOrder.get? i).map
            (fun p => (stamps.filter (fun s => s.pageNum = p)).map geomOf)).getD [])
    ∧ ((remapStamps stamps newOrder fresh).map (fun t => t.id)).Nodup := by
  constructor
  · intro i
    rw [remapStamps, assignIds_filter_geom fresh (i + 1) (remapAux stamps 0 newOrder) 0]
    have h := remapAux_filter stamps newOrder 0 i
    simp only [Nat.zero_add] at h
    rw [h]
    cases hx : newOrder.get? i with
    | none => simp
    | some p =>
      simp only [Option.map_some', Option.getD_some, List.map_map]
      rfl
  · rw [remapStamps, assignIds_map_id]
    exact (List.nodup_range' 0 _).map hinj

/-- C4 witness: the spec's example — a stamp on original page 3, with 3 at
0-indexed positions 2 and 5 of the new order — instantiated at position 5:
the clone there keeps the stamp's image and geometry and gets page 6, and
all produced ids are distinct. -/
theorem remap_duplication_fanout_witness :
    Function.Injective (fun n : Nat => n)
    ∧ ((remapStamps [stampPage3] [1, 2, 3, 4, 5, 3] (fun n => n)).filter
          (fun t => t.pageNum = 5 + 1)).map geomOf
        = (([1, 2, 3, 4, 5, 3].get? 5).map
            (fun p => ([stampPage3].filter (fun s => s.pageNum = p)).map geomOf)).getD []
    ∧ ((remapStamps [stampPage3] [1, 2, 3, 4, 5, 3] (fun n => n)).map
          (fun t => t.id)).Nodup := by
  have h := remap_duplication_fanout [stampPage3] [1, 2, 3, 4, 5, 3]
    (fun n => n) (fun a b hab => hab)
  exact ⟨fun a b hab => hab, h.1 5, h.2⟩

/-! Lemmas for claim C5 — drop semantics and the stamp-count equation. -/

/-- Sum of a pointwise sum of two maps. -/
theorem sum_map_add {α : Type} (l : List α) (f g : α → Nat) :
    (l.map (fun x => f x + g x)).sum = (l.map f).sum + (l.map g).sum := by
  induction l with
  | nil => rfl
  | cons a rest ih =>
    simp only [List.map_cons, List.sum_cons, ih]
    omega

/-- Summing the indicator of `q` over a duplicate-free list counts whether
`q` occurs. -/
theorem sum_map_indicator (q : Nat) :
    ∀ (order : List Nat), order.Nodup →
      (order.map (fun p => if q = p then 1 else 0)).sum = if q ∈ order then 1 else 0 := by
  intro order
  induction order with
  | nil => intro _; simp
  | cons p rest ih =>
    intro hnd
    rcases List.nodup_cons.mp hnd with ⟨hp, hrest⟩
    by_cases hq : q = p
    · subst hq
      simp [List.sum_cons, ih hrest, hp]
    · simp [List.sum_cons, hq, ih hrest, List.mem_cons]

/-- Summing the per-page stamp counts over a duplicate-free order counts
the stamps whose page occurs in the order. -/
theorem countP_page_sum (stamps : List Stamp) :
    ∀ (order : List Nat), order.Nodup →
      (order.map (fun p => stamps.countP (fun s => s.pageNum = p))).sum
        = stamps.countP (fun s => s.pageNum ∈ order) := by
  induction stamps with
  | nil =>
    intro order _
    simp only [List.countP_nil]
    refine Eq.trans (List.sum_eq_zero ?_) rfl
    intro x hx
    rcases List.mem_map.mp hx with ⟨p, _, rfl⟩
    rfl
  | cons s rest ih =>
    intro order hnd
    have hcons : ∀ p : Nat, (s :: rest).countP (fun t => t.pageNum = p)
        = rest.countP (fun t => t.pageNum = p) + (if s.pageNum = p then 1 else 0) := by
      intro p
      rw [List.countP_cons]
      simp
    simp only [hcons]
    rw [sum_map_add order (fun p => rest.countP (fun t => t.pageNum = p))
      (fun p => if s.pageNum = p then 1 else 0)]
    rw [ih order hnd, sum_map_indicator s.pageNum order hnd, List.countP_cons]
    simp

/-- Stamps on pages inside and outside an order partition the stamp list. -/
theorem countP_mem_split (order : List Nat) :
    ∀ (l : List Stamp),
      l.countP (fun s => s.pageNum ∈ order) + l.countP (fun s => s.pageNum ∉ order)
        = l.length := by
  intro l
  induction l with
  | nil => rfl
  | cons s rest ih =>
    rw [List.countP_cons, List.countP_cons]
    have htt : (if (true : Bool) = true then (1 : Nat) else 0) = 1 := rfl
    have hff : (if (false : Bool) = true then (1 : Nat) else 0) = 0 := rfl
    by_cases hs : s.pageNum ∈ order
    · have h1 : decide (s.pageNum ∈ order) = true := by simp [hs]
      have h2 : decide (s.pageNum ∉ order) = false := by simp [hs]
      rw [h1, h2, htt, hff, List.length_cons]
      omega
    · have h1 : decide (s.pageNum ∈ order) = false := by simp [hs]
      have h2 : decide (s.pageNum ∉ order) = true := by simp [hs]
      rw [h1, h2, htt, hff, List.length_cons]
      omega

/-- Length of the remap output: one clone per (position, matching stamp)
pair. -/
theorem remapAux_length (stamps : List Stamp) :
    ∀ (order : List Nat) (idx : Nat),
      (remapAux stamps idx order).length
        = (order.map (fun p => stamps.countP (fun s => s.pageNum = p))).sum := by
  intro order
  induction order with
  | nil => intro idx; rfl
  | cons p rest ih =>
    intro idx
    rw [remapAux]
    simp [List.length_append, ih, List.countP_eq_length_filter]

/-- Reassigning ids preserves the number of stamps. -/
theorem assignIds_length (fresh : Nat → Nat) :
    ∀ (l : List Stamp) (j : Nat), (assignIds fresh j l).length = l.length := by
  intro l
  induction l with
  | nil => intro j; rfl
  | cons s rest ih => intro j; simp [assignIds, ih]

/-- Stamps whose page was dropped contribute nothing: filtering them away
before the remap does not change its output. -/
theorem remapAux_drop_filtered (stamps : List Stamp) (full : List Nat) :
    ∀ (order : List Nat) (idx : Nat), (∀ p, p ∈ order → p ∈ full) →
      remapAux (stamps.filter (fun s => s.pageNum ∈ full)) idx order
        = remapAux stamps idx order := by
  intro order
  induction order with
  | nil => intro idx _; rfl
  | cons p rest ih =>
    intro idx hsub
    rw [remapAux, remapAux]
    have hpfull : p ∈ full := hsub p (List.mem_cons_self p rest)
    have hfilter : (stamps.filter (fun s => s.pageNum ∈ full)).filter
        (fun s => s.pageNum = p) = stamps.filter (fun s => s.pageNum = p) := by
      rw [List.filter_filter]
      apply List.filter_congr
      intro x _
      by_cases hx : x.pageNum = p
      · simp [hx, hpfull]
      · simp [hx]
    rw [hfilter, ih (idx + 1) (fun q hq => hsub q (List.mem_cons_of_mem p hq))]

/-- Every remapped stamp's page number is valid for the new page count. -/
theorem remapStamps_pageNum_valid (stamps : List Stamp) (newOrder : List Nat)
    (fresh : Nat → Nat) :
    ∀ t ∈ remapStamps stamps newOrder fresh,
      1 ≤ t.pageNum ∧ t.pageNum ≤ newOrder.length := by
  intro t ht
  rw [remapStamps] at ht
  rcases assignIds_pageNum_mem fresh (remapAux stamps 0 newOrder) 0 t ht with ⟨s, hs, hp⟩
  rcases mem_remapAux stamps newOrder 0 s hs with ⟨j, hj, hpage⟩
  omega

/-- C5, counterexample: duplication breaks the count equation of the
claim.  With one stamp on page 1 and `newOrder = [1, 1]` no page is
dropped, yet the remap yields 2 stamps while the claimed count
`old - dropped` is 1. -/
theorem remap_drop_count_refuted :
    (remapStamps [stampPage1] [1, 1] (fun n => n)).length = 2
    ∧ [stampPage1].length
        - [stampPage1].countP (fun s => s.pageNum ∉ ([1, 1] : List Nat)) = 1
    ∧ (2 : Nat) ≠ 1 := by
  refine ⟨rfl, rfl, by decide⟩

/-- C5, amended: stamps whose page was dropped are discarded (removing
them beforehand changes nothing), every remaining stamp's page number
lies in `1..length newOrder`, and — provided `newOrder` has no duplicate
page numbers — the stamp count decreases by exactly the number of stamps
that sat on dropped pages. -/
theorem remap_drop_semantics (stamps : List Stamp) (newOrder : List Nat)
    (fresh : Nat → Nat) :
    remapStamps (stamps.filter (fun s => s.pageNum ∈ newOrder)) newOrder fresh
        = remapStamps stamps newOrder fresh
    ∧ (newOrder.Nodup →
        (remapStamps stamps newOrder fresh).length
          = stamps.length - stamps.countP (fun s => s.pageNum ∉ newOrder))
    ∧ ∀ t ∈ remapStamps stamps newOrder fresh,
        1 ≤ t.pageNum ∧ t.pageNum ≤ newOrder.length := by
  refine ⟨?_, ?_, remapStamps_pageNum_valid stamps newOrder fresh⟩
  · rw [remapStamps, remapStamps,
      remapAux_drop_filtered stamps newOrder newOrder 0 (fun p hp => hp)]
  · intro hnd
    rw [remapStamps, assignIds_length fresh (remapAux stamps 0 newOrder) 0,
      remapAux_length stamps newOrder 0, countP_page_sum stamps newOrder hnd]
    have hsplit := countP_mem_split newOrder stamps
    omega

/-- C5 witness: two stamps, on pages 1 and 3, with `newOrder = [2, 1]`
(page 3 dropped, no duplicates): the drop invariance, the count equation
and the validity bound all hold. -/
theorem remap_drop_semantics_witness :
    ([2, 1] : List Nat).Nodup
    ∧ remapStamps ([stampPage1, stampPage3].filter
          (fun s => s.pageNum ∈ ([2, 1] : List Nat))) [2, 1] (fun n => n)
        = remapStamps [stampPage1, stampPage3] [2, 1] (fun n => n)
    ∧ (remapStamps [stampPage1, stampPage3] [2, 1] (fun n => n)).length
        = [stampPage1, stampPage3].length
          - [stampPage1, stampPage3].countP (fun s => s.pageNum ∉ ([2, 1] : List Nat))
    ∧ ∀ t ∈ remapStamps [stampPage1, stampPage3] [2, 1] (fun n => n),
        1 ≤ t.pageNum ∧ t.pageNum ≤ ([2, 1] : List Nat).length := by
  have h := remap_drop_semantics [stampPage1, stampPage3] [2, 1] (fun n => n)
  exact ⟨by decide, h.1, h.2.1 (by decide), h.2.2⟩

end CapGo
